import Mathlib

/-!
Shallow embedding of the BinaryIO library (BluFedora/BinaryIO).

The embedding follows the `assetio` stream shape implemented in
`src/binary_io.cpp` together with its header `binary_stream.hpp`
(`IOResult`, `ByteWriterView`, `IByteReader`, the endian codec
`detail::writeXEndian` / `detail::readXEndian`), and the relative-pointer
type of `include/binaryio/rel_ptr.hpp` (the 2021-2025 `binaryIO::rel_ptr`
with a `std::uint8_t alignment` stride parameter).

Modelling conventions:
* machine bytes are `Nat` values below 256; byte buffers are `List Nat`;
* a C++ function that can trip a `binaryIOAssert` (which aborts the
  process) is modelled as returning `Option`, `none` meaning the abort;
* the backend behind a buffered reader is modelled by the list of chunks
  it will deliver on successive refills (`IByteReader.chunks`); the
  memory-backed reader of `IByteReader::fromBuffer` has an empty chunk
  list, matching its refill function that immediately reports
  `EndOfStream` via `setFailureState`;
* `setFailureState` rebinding of the `refill_fn` slot to the stub over
  the static 16-byte zero buffer is modelled by the `failed` flag;
* addresses are unsigned machine integers (`Nat`), the null pointer is
  address 0, and pointer differences are exact integers (`Int`).
-/

/-- Error codes of the `assetio` stream interface (enum `IOResult` in
`binary_stream.hpp`). -/
inductive IOResult where
  | Success
  | EndOfStream
  | AllocationFailure
  | ReadError
  | SeekError
  | InvalidData
  | UnknownError
deriving DecidableEq, Repr

/-- Model of `assetio::ByteWriterView`: the abstract backend callback is
represented by the queue `pending` of results it will return on successive
invocations (an empty queue means the backend keeps answering `Success`,
as the `std::vector` backed writer of `byteWriterViewFromVector` does),
and by the log `calls` of the byte payloads passed to it (the
end-of-stream invocation `callback(nullptr, 0)` is logged as `[]`). -/
structure ByteWriterView where
  calls : List (List Nat)
  pending : List IOResult
  last_result : IOResult
deriving DecidableEq, Repr

/-- One invocation of the `WriteFn` backend callback of a
`ByteWriterView`: pops the next scripted result and logs the payload. -/
def ByteWriterView.invokeCallback (w : ByteWriterView) (bytes : List Nat) :
    IOResult × ByteWriterView :=
  (w.pending.headD IOResult.Success,
   { w with calls := w.calls ++ [bytes], pending := w.pending.tail })

/-- Model of `ByteWriterView::write` (`binary_io.cpp`):

  binaryIOAssert(bytes != nullptr && num_bytes > 0, ...);
  if (last_result == IOResult::Success) last_result = callback(user_data, bytes, num_bytes);
  return last_result;

Passing zero bytes fails the assertion, which aborts: modelled as `none`. -/
def ByteWriterView.write (w : ByteWriterView) (bytes : List Nat) :
    Option (IOResult × ByteWriterView) :=
  if bytes.length = 0 then none
  else if w.last_result = IOResult.Success then
    let call := w.invokeCallback bytes
    some (call.1, { call.2 with last_result := call.1 })
  else some (w.last_result, w)

/-- Model actually of `ByteWriterView::end` (`end` is reserved in Lean):

  if (last_result == IOResult::Success) last_result = callback(user_data, nullptr, 0u);
  return std::exchange(last_result, IOResult::Success); -/
def ByteWriterView.endWriter (w : ByteWriterView) : IOResult × ByteWriterView :=
  let w1 :=
    if w.last_result = IOResult.Success then
      let call := w.invokeCallback []
      { call.2 with last_result := call.1 }
    else w
  (w1.last_result, { w1 with last_result := IOResult.Success })

/-- The writer produced by `byteWriterViewFromVector` over a fresh empty
vector: no error recorded, backend always succeeds (no scripted
failures), nothing written yet.  The vector's contents after a run are
the concatenation of the logged calls. -/
def vectorWriter : ByteWriterView :=
  { calls := [], pending := [], last_result := IOResult.Success }

/-- Model of `assetio::IByteReader`.  `buffer` holds the bytes between
`buffer_start` and `buffer_end`; `cursor` is the read cursor's offset
from `buffer_start`; `chunks` are the byte blocks the backend will
deliver on successive refills (empty for the memory stream of
`fromBuffer`); `failed` records that `setFailureState` has rebound
`refill_fn` to the stub over the static zero buffer. -/
structure IByteReader where
  buffer : List Nat
  cursor : Nat
  last_result : IOResult
  chunks : List (List Nat)
  failed : Bool
deriving DecidableEq, Repr

/-- The static 16-byte zero buffer `s_ZeroBuffer` that the failure stub
installs (`IByteReader::setFailureState`). -/
def zeroBuffer : List Nat := List.replicate 16 0

/-- Model of `IByteReader::setFailureState`: record the error, rebind
`refill_fn` to the stub, and return `refill()` — which immediately runs
the stub (point the window at the zero buffer, report `last_result`). -/
def IByteReader.setFailureState (r : IByteReader) (err : IOResult) :
    IOResult × IByteReader :=
  let r1 := { r with last_result := err, failed := true }
  (r1.last_result, { r1 with buffer := zeroBuffer, cursor := 0 })

/-- Model of `refill()` = `refill_fn(this)`.  After `setFailureState`
the installed function is the zero-buffer stub; otherwise the backend
delivers its next chunk, and a backend with nothing left reports the
terminal condition through `setFailureState(EndOfStream)` exactly as the
`fromBuffer` refill function does. -/
def IByteReader.refill (r : IByteReader) : IOResult × IByteReader :=
  if r.failed then
    (r.last_result, { r with buffer := zeroBuffer, cursor := 0 })
  else
    match r.chunks with
    | [] => r.setFailureState IOResult.EndOfStream
    | c :: rest => (IOResult.Success, { r with buffer := c, cursor := 0, chunks := rest })

/-- Model of `IByteReader::numBytesAvailable` = `buffer_end - cursor`. -/
def IByteReader.numBytesAvailable (r : IByteReader) : Nat :=
  r.buffer.length - r.cursor

/-- First two statements of each iteration of the `IByteReader::read`
loop: `if (cursor == buffer_end) refill();` — the reader state after the
conditional refill. -/
def IByteReader.readStep (r : IByteReader) : IByteReader :=
  if r.cursor = r.buffer.length then (r.refill).2 else r

/-- Fuel-indexed loop of `IByteReader::read` (`binary_io.cpp`):

  while (write_cursor != write_end) {
    if (cursor == buffer_end) refill();
    if (last_result != IOResult::Success) break;
    able = min(bytes left to read, numBytesAvailable());
    memcpy(write_cursor, cursor, able); write_cursor += able; cursor += able;
  }
  return last_result;

The fuel only bounds the number of loop iterations (each iteration either
consumes requested bytes or consumes one backend chunk or halts); the
wrapper `IByteReader.read` supplies enough fuel for every state that
satisfies the documented invariant `cursor ≤ buffer_end`. -/
def IByteReader.readLoop : Nat → IByteReader → Nat → IByteReader × List Nat
  | 0, r, _ => (r, [])
  | fuel + 1, r, n =>
    if n = 0 then (r, [])
    else
      let step := r.readStep
      if step.last_result ≠ IOResult.Success then (step, [])
      else
        let able := min n step.numBytesAvailable
        let rest := IByteReader.readLoop fuel { step with cursor := step.cursor + able } (n - able)
        (rest.1, (step.buffer.drop step.cursor).take able ++ rest.2)

/-- Model of `IByteReader::read(dst, n)`: returns the final reader state
(whose `last_result` is the returned `IOResult`) and the bytes that were
copied into the destination. -/
def IByteReader.read (r : IByteReader) (n : Nat) : IByteReader × List Nat :=
  IByteReader.readLoop (n + r.chunks.length + 1) r n

/-- Model of `IByteReader::fromBuffer(buffer, buffer_size)`: the window
covers the whole memory region, the cursor is at its start, and the
refill function reports `EndOfStream` through `setFailureState` (an
exhausted backend: no chunks). -/
def IByteReader.fromBuffer (data : List Nat) : IByteReader :=
  { buffer := data, cursor := 0, last_result := IOResult.Success,
    chunks := [], failed := false }

/-- A sequence of `read` calls: thread the reader state through the list
of request sizes, concatenating the bytes delivered to the destination. -/
def IByteReader.readSeq (r : IByteReader) (sizes : List Nat) : IByteReader × List Nat :=
  match sizes with
  | [] => (r, [])
  | n :: rest =>
    let first := r.read n
    let others := first.1.readSeq rest
    (others.1, first.2 ++ others.2)

/-- Documented well-formedness of a reader state: the buffer invariant
`buffer_start <= cursor <= buffer_end` from `binary_stream.hpp`, and the
fact (maintained by every reader of the library) that a recorded error
comes with the failure stub installed by `setFailureState`. -/
def IByteReader.Wf (r : IByteReader) : Prop :=
  r.cursor ≤ r.buffer.length ∧
  (r.last_result ≠ IOResult.Success → r.failed = true)

instance (r : IByteReader) : Decidable r.Wf := by
  unfold IByteReader.Wf; infer_instance

/-- Functional update of one list entry, used to model `bytes[i] = v` on
the local `std::uint8_t bytes[sizeof(T)]` array of the endian codec. -/
def listSet : List Nat → Nat → Nat → List Nat
  | [], _, _ => []
  | _ :: xs, 0, v => v :: xs
  | x :: xs, n + 1, v => x :: listSet xs n v

/-- The byte buffer built by `detail::writeXEndian` before its single
`write` call: a `W`-byte array where position `convertIndex i` receives
byte `i` of the value's little-endian decomposition,

  bytes[convertIndex(i)] = (value >> (i * CHAR_BIT)) & 0xFF; -/
def writeXEndianBytes (W : Nat) (convertIndex : Nat → Nat) (value : Nat) : List Nat :=
  (List.range W).foldl
    (fun bytes i => listSet bytes (convertIndex i) ((value >>> (8 * i)) &&& 255))
    (List.replicate W 0)

/-- The value reconstructed by `detail::readXEndian` from the `W` bytes
it read,

  (*value) |= T(T(bytes[convertIndex(i)]) << (i * CHAR_BIT));

the outer cast to `T` reduces modulo `2 ^ (8 * W)`. -/
def readXEndianValue (W : Nat) (convertIndex : Nat → Nat) (bytes : List Nat) : Nat :=
  (List.range W).foldl
    (fun value i => value ||| ((bytes.getD (convertIndex i) 0 <<< (8 * i)) % 2 ^ (8 * W)))
    0

/-- Model of `detail::writeXEndian`: fill the local byte array, then
issue exactly one `write` call of `W` bytes on the writer. -/
def writeXEndian (w : ByteWriterView) (W : Nat) (convertIndex : Nat → Nat)
    (value : Nat) : Option (IOResult × ByteWriterView) :=
  w.write (writeXEndianBytes W convertIndex value)

/-- Model of `detail::readXEndian`: one `read` call of `W` bytes; the
output object (`value` here, passed by pointer in C++) is overwritten
with the reconstructed integer only when the read fully succeeded. -/
def readXEndian (r : IByteReader) (W : Nat) (convertIndex : Nat → Nat)
    (value : Nat) : IOResult × IByteReader × Nat :=
  let call := r.read W
  let result := call.1.last_result
  if result = IOResult.Success then
    (result, call.1, readXEndianValue W convertIndex call.2)
  else
    (result, call.1, value)

/-- The index mapping of `writeLE` / `readLE`: byte `i` goes to output
position `i`. -/
def convLE : Nat → Nat := fun i => i

/-- The index mapping of `writeBE` / `readBE` for width `W`: byte `i`
goes to output position `sizeof(T) - i - 1`. -/
def convBE (W : Nat) : Nat → Nat := fun i => W - i - 1

/-- Upper bound of a signed `w`-bit offset type:
`std::numeric_limits::max()`. -/
def offsetMax (w : Nat) : Int := 2 ^ (w - 1) - 1

/-- Lower bound of a signed `w`-bit offset type:
`std::numeric_limits::min()`. -/
def offsetMin (w : Nat) : Int := -(2 ^ (w - 1) : Int)

/-- The sentinel `k_OffsetInvalid` of `binaryIO::rel_ptr` for a signed
offset type: its minimum representable value. -/
def offsetInvalid (w : Nat) : Int := offsetMin w

/-- Reduction modulo `2 ^ w` into the signed range, modelling
`static_cast<offset_type>` on a two's-complement machine. -/
def signedWrap (w : Nat) (x : Int) : Int :=
  (x + 2 ^ (w - 1)) % 2 ^ w - 2 ^ (w - 1)

/-- Model of `binaryIO::rel_ptr::calculateOffset` (rel_ptr.hpp) for a
signed `w`-bit offset type with stride `alignment`:

  if (rhs) {
    const std::ptrdiff_t off = reinterpret_cast<const uint8_t*>(rhs) - base;
    binaryIOAssert((static_cast<std::uintptr_t>(off) % alignment) == 0, ...);
    binaryIOAssert(off >= k_OffsetMin && off < k_OffsetMax, ...);
    return static_cast<offset_type>(off / alignment);
  }
  return k_OffsetInvalid;

`rhs` and `base` are addresses; a failed assertion aborts (`none`).  The
`uintptr_t` cast reduces the pointer difference modulo `2 ^ 64`, and
`off / alignment` truncates toward zero (`Int.tdiv`). -/
def calculateOffset (w : Nat) (alignment : Nat) (rhs base : Nat) : Option Int :=
  if rhs ≠ 0 then
    let off : Int := (rhs : Int) - (base : Int)
    if (off % (2 ^ 64 : Int)).toNat % alignment = 0 then
      if offsetMin w ≤ off ∧ off < offsetMax w then
        some (signedWrap w (off.tdiv alignment))
      else none
    else none
  else some (offsetInvalid w)

/-- Model of `rel_ptr::assign(T*)`: store `calculateOffset(rhs, base())`
where `base()` is the pointer's own storage address (`self`).  The
result is the stored offset, or `none` when an assertion aborted. -/
def relAssign (w : Nat) (alignment : Nat) (self rhs : Nat) : Option Int :=
  calculateOffset w alignment rhs self

/-- Model of `rel_ptr::assign(std::nullptr_t)`: store the sentinel. -/
def relAssignNull (w : Nat) : Int := offsetInvalid w

/-- Model of `rel_ptr::isNull`: the stored offset equals the sentinel. -/
def relIsNull (w : Nat) (offset : Int) : Bool := offset = offsetInvalid w

/-- Model of `rel_ptr::get`: `nullptr` when the sentinel is stored, else
the address `base() + offset * alignment`. -/
def relGet (w : Nat) (alignment : Nat) (self : Nat) (offset : Int) : Option Int :=
  if offset = offsetInvalid w then none
  else some ((self : Int) + offset * alignment)

/-- The reader state installed by `setFailureState(EndOfStream)` on a
memory-backed (chunkless) reader: window over the static zero buffer,
sticky `EndOfStream`, failure stub bound. -/
def eosState : IByteReader :=
  { buffer := zeroBuffer, cursor := 0, last_result := IOResult.EndOfStream,
    chunks := [], failed := true }

/-- Iterated `refill`: the reader state after `k` further `Refill`
calls. -/
def refillIter (r : IByteReader) : Nat → IByteReader
  | 0 => r
  | k + 1 => ((refillIter r k).refill).2

/-! Lemmas about `listSet`. -/

theorem length_listSet (l : List Nat) (n v : Nat) : (listSet l n v).length = l.length := by
  induction l generalizing n with
  | nil => rfl
  | cons x xs ih =>
    cases n with
    | zero => rfl
    | succ m => simpa [listSet] using ih m

theorem getD_listSet_self (l : List Nat) (n v d : Nat) (h : n < l.length) :
    (listSet l n v).getD n d = v := by
  induction l generalizing n with
  | nil => simp at h
  | cons x xs ih =>
    cases n with
    | zero => rfl
    | succ m =>
      simp only [listSet, List.getD_cons_succ]
      exact ih m (by simpa using h)

theorem getD_listSet_ne (l : List Nat) (n m v d : Nat) (h : m ≠ n) :
    (listSet l n v).getD m d = l.getD m d := by
  induction l generalizing n m with
  | nil => rfl
  | cons x xs ih =>
    cases n with
    | zero =>
      cases m with
      | zero => exact absurd rfl h
      | succ k => rfl
    | succ j =>
      cases m with
      | zero => rfl
      | succ k =>
        simp only [listSet, List.getD_cons_succ]
        exact ih j k (by omega)

/-! Characterization of the byte buffer built by `writeXEndian`. -/

theorem length_foldl_listSet (is : List Nat) (conv : Nat → Nat) (f : Nat → Nat)
    (l : List Nat) :
    (is.foldl (fun bytes i => listSet bytes (conv i) (f i)) l).length = l.length := by
  induction is generalizing l with
  | nil => rfl
  | cons i rest ih => simp [List.foldl_cons, ih, length_listSet]

theorem length_writeXEndianBytes (W : Nat) (conv : Nat → Nat) (v : Nat) :
    (writeXEndianBytes W conv v).length = W := by
  unfold writeXEndianBytes
  rw [length_foldl_listSet]
  exact List.length_replicate W 0

theorem getD_foldl_listSet (conv : Nat → Nat) (f : Nat → Nat) (W : Nat)
    (hconv : ∀ i, i < W → conv i < W)
    (hinj : ∀ i j, i < W → j < W → conv i = conv j → i = j) :
    ∀ k, k ≤ W → ∀ l : List Nat, l.length = W → ∀ i, i < k →
      ((List.range k).foldl (fun bytes i => listSet bytes (conv i) (f i)) l).getD (conv i) 0
        = f i := by
  intro k
  induction k with
  | zero => intro _ _ _ i hi; omega
  | succ k ih =>
    intro hk l hl i hi
    rw [List.range_succ, List.foldl_append]
    rcases Nat.lt_or_ge i k with hik | hik
    · rw [List.foldl_cons, List.foldl_nil]
      rw [getD_listSet_ne]
      · exact ih (by omega) l hl i hik
      · intro h
        have := hinj i k (by omega) (by omega) h
        omega
    · have hik' : i = k := by omega
      subst hik'
      rw [List.foldl_cons, List.foldl_nil]
      apply getD_listSet_self
      rw [length_foldl_listSet, hl]
      exact hconv i (by omega)

theorem getD_writeXEndianBytes (W : Nat) (conv : Nat → Nat) (v : Nat)
    (hconv : ∀ i, i < W → conv i < W)
    (hinj : ∀ i j, i < W → j < W → conv i = conv j → i = j)
    (i : Nat) (hi : i < W) :
    (writeXEndianBytes W conv v).getD (conv i) 0 = (v >>> (8 * i)) &&& 255 := by
  unfold writeXEndianBytes
  exact getD_foldl_listSet conv (fun i => (v >>> (8 * i)) &&& 255) W hconv hinj W
    (Nat.le_refl W) (List.replicate W 0) (List.length_replicate W 0) i hi

/-! Reconstruction: OR-ing the bytes back recovers the value. -/

theorem or_byte_step (v k : Nat) :
    v % 2 ^ (8 * (k + 1)) = v % 2 ^ (8 * k) ||| (((v >>> (8 * k)) &&& 255) <<< (8 * k)) := by
  have h255 : (255 : Nat) = 2 ^ 8 - 1 := by norm_num
  apply Nat.eq_of_testBit_eq
  intro j
  rw [h255]
  simp only [Nat.testBit_mod_two_pow, Nat.testBit_or, Nat.testBit_shiftLeft, Nat.testBit_land,
    Nat.testBit_shiftRight, Nat.testBit_two_pow_sub_one]
  rcases Nat.lt_or_ge j (8 * k) with hj | hj
  · have h1 : j < 8 * (k + 1) := by omega
    have h2 : ¬ 8 * k ≤ j := by omega
    simp [h1, hj, h2]
  · have hsum : 8 * k + (j - 8 * k) = j := by omega
    rcases Nat.lt_or_ge j (8 * (k + 1)) with hj2 | hj2
    · have h1 : ¬ j < 8 * k := by omega
      have h2 : j - 8 * k < 8 := by omega
      simp [hj2, h1, hj, hsum, h2]
    · have h1 : ¬ j < 8 * (k + 1) := by omega
      have h2 : ¬ j < 8 * k := by omega
      have h3 : ¬ j - 8 * k < 8 := by omega
      simp [h1, h2, hj, hsum, h3]

theorem byte_shift_lt (v k W : Nat) (hk : k < W) :
    ((v >>> (8 * k)) &&& 255) <<< (8 * k) < 2 ^ (8 * W) := by
  have hb : (v >>> (8 * k)) &&& 255 ≤ 255 := Nat.and_le_right
  calc ((v >>> (8 * k)) &&& 255) <<< (8 * k)
      = ((v >>> (8 * k)) &&& 255) * 2 ^ (8 * k) := Nat.shiftLeft_eq _ _
    _ ≤ 255 * 2 ^ (8 * k) := Nat.mul_le_mul_right _ hb
    _ < 256 * 2 ^ (8 * k) := by
        have : (0 : Nat) < 2 ^ (8 * k) := Nat.pos_pow_of_pos _ (by norm_num)
        omega
    _ = 2 ^ (8 * k + 8) := by rw [Nat.pow_add]; ring
    _ ≤ 2 ^ (8 * W) := Nat.pow_le_pow_right (by norm_num) (by omega)

theorem readXEndianValue_fold (W : Nat) (conv : Nat → Nat) (bytes : List Nat) (v : Nat)
    (hbytes : ∀ i, i < W → bytes.getD (conv i) 0 = (v >>> (8 * i)) &&& 255) :
    ∀ k, k ≤ W →
      (List.range k).foldl
        (fun value i => value ||| ((bytes.getD (conv i) 0 <<< (8 * i)) % 2 ^ (8 * W))) 0
        = v % 2 ^ (8 * k) := by
  intro k
  induction k with
  | zero => intro _; simp [Nat.mod_one]
  | succ k ih =>
    intro hk
    rw [List.range_succ, List.foldl_append, ih (by omega), List.foldl_cons, List.foldl_nil]
    rw [hbytes k (by omega)]
    rw [Nat.mod_eq_of_lt (byte_shift_lt v k W (by omega))]
    exact (or_byte_step v k).symm

theorem readXEndianValue_writeXEndianBytes (W : Nat) (conv : Nat → Nat) (v : Nat)
    (hv : v < 2 ^ (8 * W))
    (hconv : ∀ i, i < W → conv i < W)
    (hinj : ∀ i j, i < W → j < W → conv i = conv j → i = j) :
    readXEndianValue W conv (writeXEndianBytes W conv v) = v := by
  unfold readXEndianValue
  rw [readXEndianValue_fold W conv _ v
    (fun i hi => getD_writeXEndianBytes W conv v hconv hinj i hi) W (Nat.le_refl W)]
  exact Nat.mod_eq_of_lt hv

/-! Case lemmas for `refill` and the conditional-refill step. -/

theorem refill_failed (r : IByteReader) (h : r.failed = true) :
    r.refill = (r.last_result, { r with buffer := zeroBuffer, cursor := 0 }) := by
  simp [IByteReader.refill, h]

theorem refill_no_chunks (r : IByteReader) (h : r.failed = false) (hc : r.chunks = []) :
    r.refill = (IOResult.EndOfStream,
      { r with last_result := IOResult.EndOfStream, failed := true,
               buffer := zeroBuffer, cursor := 0 }) := by
  simp [IByteReader.refill, h, hc, IByteReader.setFailureState]

theorem refill_chunk (r : IByteReader) (c : List Nat) (cs : List (List Nat))
    (h : r.failed = false) (hc : r.chunks = c :: cs) :
    r.refill = (IOResult.Success, { r with buffer := c, cursor := 0, chunks := cs }) := by
  simp [IByteReader.refill, h, hc]

theorem length_zeroBuffer : zeroBuffer.length = 16 := by
  simp [zeroBuffer]

theorem readStep_cursor_le (r : IByteReader) (h : r.cursor ≤ r.buffer.length) :
    (r.readStep).cursor ≤ (r.readStep).buffer.length := by
  unfold IByteReader.readStep
  by_cases hcur : r.cursor = r.buffer.length
  · rw [if_pos hcur]
    cases hf : r.failed
    · cases hc : r.chunks with
      | nil => rw [refill_no_chunks r hf hc]; simp
      | cons c cs => rw [refill_chunk r c cs hf hc]; simp
    · rw [refill_failed r hf]; simp
  · rw [if_neg hcur]; exact h

theorem readStep_wf (r : IByteReader) (h : r.Wf) : (r.readStep).Wf := by
  obtain ⟨h1, h2⟩ := h
  unfold IByteReader.readStep
  by_cases hcur : r.cursor = r.buffer.length
  · rw [if_pos hcur]
    cases hf : r.failed
    · cases hc : r.chunks with
      | nil =>
        rw [refill_no_chunks r hf hc]
        exact ⟨by simp [length_zeroBuffer], fun _ => rfl⟩
      | cons c cs =>
        rw [refill_chunk r c cs hf hc]
        refine ⟨by simp, fun hne => ?_⟩
        exact absurd (h2 hne) (by simp [hf])
    · rw [refill_failed r hf]
      exact ⟨by simp [length_zeroBuffer], fun _ => hf⟩
  · rw [if_neg hcur]; exact ⟨h1, h2⟩

theorem readStep_err_ne (r : IByteReader) (h : r.Wf)
    (he : (r.readStep).last_result ≠ IOResult.Success) :
    (r.readStep).cursor ≠ (r.readStep).buffer.length := by
  obtain ⟨h1, h2⟩ := h
  unfold IByteReader.readStep at he ⊢
  by_cases hcur : r.cursor = r.buffer.length
  · rw [if_pos hcur] at he ⊢
    cases hf : r.failed
    · cases hc : r.chunks with
      | nil => rw [refill_no_chunks r hf hc]; simp [length_zeroBuffer]
      | cons c cs =>
        rw [refill_chunk r c cs hf hc] at he
        exact absurd (h2 he) (by simp [hf])
    · rw [refill_failed r hf]; simp [length_zeroBuffer]
  · rw [if_neg hcur] at he ⊢; exact hcur

theorem readStep_decrease (r : IByteReader) (n : Nat)
    (h : r.cursor ≤ r.buffer.length) (hn : n ≠ 0)
    (hok : (r.readStep).last_result = IOResult.Success) :
    (n - min n (r.readStep).numBytesAvailable) + (r.readStep).chunks.length
      < n + r.chunks.length := by
  unfold IByteReader.readStep at hok ⊢
  by_cases hcur : r.cursor = r.buffer.length
  · rw [if_pos hcur] at hok ⊢
    cases hf : r.failed
    · cases hc : r.chunks with
      | nil =>
        rw [refill_no_chunks r hf hc] at hok
        exact absurd hok (by simp)
      | cons c cs =>
        rw [refill_chunk r c cs hf hc]
        simp only [IByteReader.numBytesAvailable, hc]
        simp only [List.length_cons]
        omega
    · rw [refill_failed r hf]
      simp only [IByteReader.numBytesAvailable, length_zeroBuffer]
      omega
  · rw [if_neg hcur]
    simp only [IByteReader.numBytesAvailable]
    omega

/-! With enough fuel the loop's result does not depend on the fuel. -/

theorem readLoop_fuel (m : Nat) : ∀ (f1 f2 : Nat) (r : IByteReader) (n : Nat),
    n + r.chunks.length ≤ m → r.cursor ≤ r.buffer.length → m < f1 → m < f2 →
    IByteReader.readLoop f1 r n = IByteReader.readLoop f2 r n := by
  induction m with
  | zero =>
    intro f1 f2 r n hm hc hf1 hf2
    obtain ⟨a, rfl⟩ : ∃ a, f1 = a + 1 := ⟨f1 - 1, by omega⟩
    obtain ⟨b, rfl⟩ : ∃ b, f2 = b + 1 := ⟨f2 - 1, by omega⟩
    have hn : n = 0 := by omega
    subst hn
    simp [IByteReader.readLoop]
  | succ m ih =>
    intro f1 f2 r n hm hc hf1 hf2
    obtain ⟨a, rfl⟩ : ∃ a, f1 = a + 1 := ⟨f1 - 1, by omega⟩
    obtain ⟨b, rfl⟩ : ∃ b, f2 = b + 1 := ⟨f2 - 1, by omega⟩
    by_cases hn : n = 0
    · subst hn; simp [IByteReader.readLoop]
    · simp only [IByteReader.readLoop, if_neg hn]
      by_cases hok : (r.readStep).last_result = IOResult.Success
      · have hdec := readStep_decrease r n hc hn hok
        have hcur' := readStep_cursor_le r hc
        simp only [hok, ne_eq, not_true_eq_false, if_false]
        have key := ih a b
          { buffer := (r.readStep).buffer,
            cursor := (r.readStep).cursor + min n (r.readStep).numBytesAvailable,
            last_result := IOResult.Success,
            chunks := (r.readStep).chunks,
            failed := (r.readStep).failed }
          (n - min n (r.readStep).numBytesAvailable)
          (by show (n - min n (r.readStep).numBytesAvailable) + (r.readStep).chunks.length ≤ m
              omega)
          (by show (r.readStep).cursor + min n (r.readStep).numBytesAvailable
                ≤ (r.readStep).buffer.length
              simp only [IByteReader.numBytesAvailable] at hcur' ⊢
              omega)
          (by omega) (by omega)
        rw [key]
      · simp [hok]

/-! Unfolding laws for `read` on well-formed states. -/

theorem read_zero (r : IByteReader) : r.read 0 = (r, []) := by
  simp [IByteReader.read, IByteReader.readLoop]

theorem read_pos (r : IByteReader) (n : Nat)
    (hc : r.cursor ≤ r.buffer.length) (hn : n ≠ 0) :
    r.read n =
      if (r.readStep).last_result ≠ IOResult.Success then (r.readStep, [])
      else
        ((({ buffer := (r.readStep).buffer,
             cursor := (r.readStep).cursor + min n (r.readStep).numBytesAvailable,
             last_result := IOResult.Success,
             chunks := (r.readStep).chunks,
             failed := (r.readStep).failed } : IByteReader).read
            (n - min n (r.readStep).numBytesAvailable)).1,
         ((r.readStep).buffer.drop (r.readStep).cursor).take
             (min n (r.readStep).numBytesAvailable) ++
           (({ buffer := (r.readStep).buffer,
               cursor := (r.readStep).cursor + min n (r.readStep).numBytesAvailable,
               last_result := IOResult.Success,
               chunks := (r.readStep).chunks,
               failed := (r.readStep).failed } : IByteReader).read
            (n - min n (r.readStep).numBytesAvailable)).2) := by
  conv_lhs => rw [IByteReader.read]
  obtain ⟨f, hf⟩ : ∃ f, n + r.chunks.length + 1 = f + 1 := ⟨n + r.chunks.length, rfl⟩
  rw [hf]
  simp only [IByteReader.readLoop, if_neg hn]
  by_cases hok : (r.readStep).last_result = IOResult.Success
  · have hdec := readStep_decrease r n hc hn hok
    have hcur' := readStep_cursor_le r hc
    simp only [hok, ne_eq, not_true_eq_false, if_false]
    have key := readLoop_fuel
      ((n - min n (r.readStep).numBytesAvailable) + (r.readStep).chunks.length) f
      ((n - min n (r.readStep).numBytesAvailable) +
        (r.readStep).chunks.length + 1)
      { buffer := (r.readStep).buffer,
        cursor := (r.readStep).cursor + min n (r.readStep).numBytesAvailable,
        last_result := IOResult.Success,
        chunks := (r.readStep).chunks,
        failed := (r.readStep).failed }
      (n - min n (r.readStep).numBytesAvailable)
      (by show (n - min n (r.readStep).numBytesAvailable) + (r.readStep).chunks.length
            ≤ (n - min n (r.readStep).numBytesAvailable) + (r.readStep).chunks.length
          omega)
      (by show (r.readStep).cursor + min n (r.readStep).numBytesAvailable
            ≤ (r.readStep).buffer.length
          simp only [IByteReader.numBytesAvailable] at hcur' ⊢
          omega)
      (by omega) (by omega)
    rw [key]
    rfl
  · simp [hok]

/-! Preservation of well-formedness by `read`. -/

theorem read_wf_aux (m : Nat) : ∀ (r : IByteReader) (n : Nat),
    n + r.chunks.length ≤ m → r.Wf → ((r.read n).1).Wf := by
  induction m with
  | zero =>
    intro r n hm hwf
    have hn : n = 0 := by omega
    subst hn
    rw [read_zero]
    exact hwf
  | succ m ih =>
    intro r n hm hwf
    by_cases hn : n = 0
    · subst hn; rw [read_zero]; exact hwf
    · rw [read_pos r n hwf.1 hn]
      by_cases hok : (r.readStep).last_result = IOResult.Success
      · have hdec := readStep_decrease r n hwf.1 hn hok
        have hcur' := readStep_cursor_le r hwf.1
        simp only [if_neg (not_not_intro hok)]
        apply ih
        · show (n - min n (r.readStep).numBytesAvailable) + (r.readStep).chunks.length ≤ m
          omega
        · constructor
          · show (r.readStep).cursor + min n (r.readStep).numBytesAvailable
              ≤ (r.readStep).buffer.length
            simp only [IByteReader.numBytesAvailable] at hcur' ⊢
            omega
          · intro h
            exact absurd rfl h
      · rw [if_pos hok]
        exact readStep_wf r hwf

theorem read_wf (r : IByteReader) (n : Nat) (hwf : r.Wf) : ((r.read n).1).Wf :=
  read_wf_aux (n + r.chunks.length) r n (Nat.le_refl _) hwf

/-- A reader that already records an error and whose cursor is strictly
inside its buffer is left untouched by any `read`: the loop's error check
halts it before copying or refilling. -/
theorem read_err_state (s : IByteReader) (b : Nat)
    (hse : s.last_result ≠ IOResult.Success)
    (hsc : s.cursor ≠ s.buffer.length) (hle : s.cursor ≤ s.buffer.length) :
    s.read b = (s, []) := by
  cases b with
  | zero => exact read_zero s
  | succ b =>
    rw [read_pos s (b + 1) hle (by omega)]
    have hstep : s.readStep = s := by
      unfold IByteReader.readStep
      rw [if_neg hsc]
    rw [hstep, if_pos hse]


/-- When the cursor is not at the end of the buffer, the loop's
conditional refill does nothing. -/
theorem readStep_no_refill (s : IByteReader) (h : s.cursor ≠ s.buffer.length) :
    s.readStep = s := by
  unfold IByteReader.readStep
  rw [if_neg h]

/-! Additivity of buffered reads: one call of `a + b` bytes behaves like
a call of `a` bytes followed by a call of `b` bytes. -/

theorem read_add_aux (m : Nat) : ∀ (r : IByteReader) (a b : Nat),
    a + r.chunks.length ≤ m → r.Wf →
    r.read (a + b) = (((r.read a).1.read b).1, (r.read a).2 ++ ((r.read a).1.read b).2) := by
  induction m with
  | zero =>
    intro r a b hm hwf
    have ha : a = 0 := by omega
    subst ha
    simp only [read_zero, Nat.zero_add, List.nil_append]
  | succ m ih =>
    intro r a b hm hwf
    by_cases ha : a = 0
    · subst ha
      simp only [read_zero, Nat.zero_add, List.nil_append]
    · by_cases hb : b = 0
      · subst hb
        simp only [read_zero, Nat.add_zero, List.append_nil]
      · have hc := hwf.1
        have hab : a + b ≠ 0 := by omega
        rw [read_pos r (a + b) hc hab, read_pos r a hc ha]
        by_cases hok : (r.readStep).last_result = IOResult.Success
        · have hdec := readStep_decrease r a hc ha hok
          have hcur' := readStep_cursor_le r hc
          simp only [if_neg (not_not_intro hok)]
          rcases Nat.lt_or_ge a ((r.readStep).numBytesAvailable) with hlt | hle
          · -- the window holds more bytes than the first call requests
            have h2 : min a (r.readStep).numBytesAvailable = a := by omega
            rw [h2]
            have h0 : a - a = 0 := by omega
            rw [h0, read_zero]
            have hnext_le : (r.readStep).cursor + a ≤ (r.readStep).buffer.length := by
              simp only [IByteReader.numBytesAvailable] at hlt
              omega
            rw [read_pos
              { buffer := (r.readStep).buffer,
                cursor := (r.readStep).cursor + a,
                last_result := IOResult.Success,
                chunks := (r.readStep).chunks,
                failed := (r.readStep).failed } b hnext_le hb]
            rw [readStep_no_refill
              { buffer := (r.readStep).buffer,
                cursor := (r.readStep).cursor + a,
                last_result := IOResult.Success,
                chunks := (r.readStep).chunks,
                failed := (r.readStep).failed }
              (by show (r.readStep).cursor + a ≠ (r.readStep).buffer.length
                  simp only [IByteReader.numBytesAvailable] at hlt
                  omega)]
            simp only [if_neg (not_not_intro rfl)]
            have havail2 :
                ({ buffer := (r.readStep).buffer,
                   cursor := (r.readStep).cursor + a,
                   last_result := IOResult.Success,
                   chunks := (r.readStep).chunks,
                   failed := (r.readStep).failed } : IByteReader).numBytesAvailable
                = (r.readStep).numBytesAvailable - a := by
              simp only [IByteReader.numBytesAvailable]
              omega
            rw [havail2]
            have h1 : min (a + b) (r.readStep).numBytesAvailable
                = a + min b ((r.readStep).numBytesAvailable - a) := by omega
            rw [h1]
            have harith2 : a + b - (a + min b ((r.readStep).numBytesAvailable - a))
                = b - min b ((r.readStep).numBytesAvailable - a) := by omega
            rw [harith2]
            have hcursor : (r.readStep).cursor + (a + min b ((r.readStep).numBytesAvailable - a))
                = (r.readStep).cursor + a + min b ((r.readStep).numBytesAvailable - a) := by
              omega
            rw [hcursor]
            have htake : ((r.readStep).buffer.drop (r.readStep).cursor).take
                  (a + min b ((r.readStep).numBytesAvailable - a))
                = ((r.readStep).buffer.drop (r.readStep).cursor).take a ++
                  ((r.readStep).buffer.drop ((r.readStep).cursor + a)).take
                    (min b ((r.readStep).numBytesAvailable - a)) := by
              rw [List.take_add, List.drop_drop]
            rw [htake]
            simp only [List.append_assoc, List.nil_append]
          · -- the first call drains the whole window (or the window is
            -- empty because the refill delivered an empty chunk)
            have h1 : min (a + b) (r.readStep).numBytesAvailable
                = (r.readStep).numBytesAvailable := by omega
            have h2 : min a (r.readStep).numBytesAvailable
                = (r.readStep).numBytesAvailable := by omega
            rw [h2] at hdec
            rw [h1, h2]
            have harith : a + b - (r.readStep).numBytesAvailable
                = (a - (r.readStep).numBytesAvailable) + b := by omega
            rw [harith]
            have hkey := ih
              { buffer := (r.readStep).buffer,
                cursor := (r.readStep).cursor + (r.readStep).numBytesAvailable,
                last_result := IOResult.Success,
                chunks := (r.readStep).chunks,
                failed := (r.readStep).failed }
              (a - (r.readStep).numBytesAvailable) b
              (by show (a - (r.readStep).numBytesAvailable) + (r.readStep).chunks.length ≤ m
                  omega)
              (by constructor
                  · show (r.readStep).cursor + (r.readStep).numBytesAvailable
                      ≤ (r.readStep).buffer.length
                    simp only [IByteReader.numBytesAvailable] at hcur' ⊢
                    omega
                  · intro h; exact absurd rfl h)
            rw [hkey]
            simp only [List.append_assoc]
        · -- the (possibly refilled) state reports an error: both runs halt
          simp only [if_pos hok]
          have hwfs := readStep_wf r hwf
          have hne := readStep_err_ne r hwf hok
          rw [read_err_state (r.readStep) b hok hne hwfs.1]
          simp

theorem read_add (r : IByteReader) (a b : Nat) (hwf : r.Wf) :
    r.read (a + b) = (((r.read a).1.read b).1, (r.read a).2 ++ ((r.read a).1.read b).2) :=
  read_add_aux (a + r.chunks.length) r a b (Nat.le_refl _) hwf

theorem read_eosState (m : Nat) : eosState.read m = (eosState, []) := by
  cases m with
  | zero => exact read_zero eosState
  | succ m =>
    apply read_err_state
    · intro h; exact IOResult.noConfusion h
    · show (0 : Nat) ≠ zeroBuffer.length
      rw [length_zeroBuffer]; omega
    · show (0 : Nat) ≤ zeroBuffer.length
      omega

/-- A non-empty read on a memory-backed reader whose cursor is at the end
of its window: the refill immediately reports `EndOfStream`. -/
theorem read_fromBuffer_at_end (data : List Nat) (m : Nat) (hm0 : m ≠ 0) :
    ({ buffer := data, cursor := data.length, last_result := IOResult.Success,
       chunks := [], failed := false } : IByteReader).read m
      = (eosState, []) := by
  rw [read_pos _ m (by exact Nat.le_refl _) hm0]
  have hstep :
      ({ buffer := data, cursor := data.length, last_result := IOResult.Success,
         chunks := [], failed := false } : IByteReader).readStep = eosState := by
    unfold IByteReader.readStep
    rw [if_pos (by exact rfl)]
    rw [refill_no_chunks _ rfl rfl]
    rfl
  rw [hstep]
  rw [if_pos (by intro h; exact IOResult.noConfusion h)]

/-- Reading more bytes than remain in a memory-backed reader delivers the
remaining bytes and leaves the reader in the terminal `EndOfStream`
state. -/
theorem read_fromBuffer_over (data : List Nat) (c m : Nat)
    (hc : c ≤ data.length) (hm : data.length - c < m) :
    ({ buffer := data, cursor := c, last_result := IOResult.Success,
       chunks := [], failed := false } : IByteReader).read m
      = (eosState, data.drop c) := by
  by_cases hce : c = data.length
  · subst hce
    rw [read_fromBuffer_at_end data m (by omega)]
    rw [List.drop_of_length_le (by omega)]
  · have hlt : c < data.length := by omega
    have hm0 : m ≠ 0 := by omega
    rw [read_pos _ m (by exact hc) hm0]
    rw [readStep_no_refill _ (by exact hce)]
    rw [if_neg (not_not_intro rfl)]
    have havail :
        ({ buffer := data, cursor := c, last_result := IOResult.Success,
           chunks := [], failed := false } : IByteReader).numBytesAvailable
          = data.length - c := rfl
    rw [havail]
    have hmin : min m (data.length - c) = data.length - c := by omega
    rw [hmin]
    have hcur : c + (data.length - c) = data.length := by omega
    rw [hcur]
    have htake : (data.drop c).take (data.length - c) = data.drop c := by
      apply List.take_of_length_le
      rw [List.length_drop]
    rw [htake]
    rw [read_fromBuffer_at_end data (m - (data.length - c)) (by omega)]
    simp

/-- Reading exactly the size of a memory-backed reader's contents
delivers all of the bytes and leaves the stream healthy (the loop exits
before any refill). -/
theorem read_fromBuffer_all (data : List Nat) :
    (IByteReader.fromBuffer data).read data.length
      = ({ buffer := data, cursor := data.length, last_result := IOResult.Success,
           chunks := [], failed := false }, data) := by
  by_cases h : data.length = 0
  · rw [h, read_zero]
    have hd : data = [] := List.length_eq_zero.mp h
    subst hd
    rfl
  · rw [show IByteReader.fromBuffer data
        = { buffer := data, cursor := 0, last_result := IOResult.Success,
            chunks := [], failed := false } from rfl]
    rw [read_pos _ data.length (by show (0 : Nat) ≤ data.length; omega) h]
    rw [readStep_no_refill _ (by exact fun hh => h hh.symm)]
    rw [if_neg (not_not_intro rfl)]
    have havail :
        ({ buffer := data, cursor := 0, last_result := IOResult.Success,
           chunks := [], failed := false } : IByteReader).numBytesAvailable
          = data.length := by
      show data.length - 0 = data.length
      omega
    rw [havail]
    have hmin : min data.length data.length = data.length := by omega
    rw [hmin]
    have hsub : data.length - data.length = 0 := by omega
    rw [hsub, read_zero]
    have hz : (0 : Nat) + data.length = data.length := by omega
    rw [hz, List.drop_zero, List.take_length]
    simp

/-- A `writeXEndian` on a writer with no recorded error invokes the
backend once with the assembled byte buffer. -/
theorem writeXEndian_ok (w : ByteWriterView) (W : Nat) (conv : Nat → Nat) (v : Nat)
    (hw : w.last_result = IOResult.Success) (hW : W ≠ 0) :
    writeXEndian w W conv v =
      some (w.pending.headD IOResult.Success,
        { calls := w.calls ++ [writeXEndianBytes W conv v],
          pending := w.pending.tail,
          last_result := w.pending.headD IOResult.Success }) := by
  unfold writeXEndian ByteWriterView.write ByteWriterView.invokeCallback
  rw [length_writeXEndianBytes]
  rw [if_neg hW, if_pos hw]

/-- End-to-end round-trip for any width and any injective index mapping:
serialize through a fresh vector-backed writer, read back through a
memory-backed reader over the bytes the backend received. -/
theorem endian_roundtrip (W : Nat) (conv : Nat → Nat) (v old : Nat)
    (hW : W ≠ 0) (hv : v < 2 ^ (8 * W))
    (hconv : ∀ i, i < W → conv i < W)
    (hinj : ∀ i j, i < W → j < W → conv i = conv j → i = j) :
    ∃ w', writeXEndian vectorWriter W conv v = some (IOResult.Success, w') ∧
      (readXEndian (IByteReader.fromBuffer w'.calls.flatten) W conv old).1
        = IOResult.Success ∧
      (readXEndian (IByteReader.fromBuffer w'.calls.flatten) W conv old).2.2 = v := by
  refine ⟨{ calls := [writeXEndianBytes W conv v], pending := [],
            last_result := IOResult.Success }, ?_, ?_, ?_⟩
  · rw [writeXEndian_ok vectorWriter W conv v rfl hW]
    rfl
  · show (readXEndian (IByteReader.fromBuffer
        (([writeXEndianBytes W conv v] : List (List Nat)).flatten)) W conv old).1
      = IOResult.Success
    rw [List.flatten_cons]
    rw [show (([] : List (List Nat)).flatten) = ([] : List Nat) from rfl]
    rw [List.append_nil]
    unfold readXEndian
    rw [show (IByteReader.fromBuffer (writeXEndianBytes W conv v)).read W
        = (IByteReader.fromBuffer (writeXEndianBytes W conv v)).read
            (writeXEndianBytes W conv v).length from by
      rw [length_writeXEndianBytes]]
    rw [read_fromBuffer_all (writeXEndianBytes W conv v)]
    rfl
  · show (readXEndian (IByteReader.fromBuffer
        (([writeXEndianBytes W conv v] : List (List Nat)).flatten)) W conv old).2.2 = v
    rw [List.flatten_cons]
    rw [show (([] : List (List Nat)).flatten) = ([] : List Nat) from rfl]
    rw [List.append_nil]
    unfold readXEndian
    rw [show (IByteReader.fromBuffer (writeXEndianBytes W conv v)).read W
        = (IByteReader.fromBuffer (writeXEndianBytes W conv v)).read
            (writeXEndianBytes W conv v).length from by
      rw [length_writeXEndianBytes]]
    rw [read_fromBuffer_all (writeXEndianBytes W conv v)]
    show readXEndianValue W conv (writeXEndianBytes W conv v) = v
    exact readXEndianValue_writeXEndianBytes W conv v hv hconv hinj

/-! Arithmetic facts about the relative-pointer offset computation. -/

theorem signedWrap_eq_self (w : Nat) (x : Int)
    (h1 : -(2 ^ (w - 1) : Int) ≤ x) (h2 : x < 2 ^ (w - 1)) (hw : w ≠ 0) :
    signedWrap w x = x := by
  unfold signedWrap
  have hp : (2 : Int) ^ w = 2 ^ (w - 1) * 2 := by
    rw [← pow_succ]
    congr 1
    omega
  rw [Int.emod_eq_of_lt (by linarith) (by rw [hp]; linarith)]
  ring

theorem tdiv_bounds (d al B : Int) (hal : 1 ≤ al) (hdvd : al ∣ d) (hB : 0 < B)
    (hlo : -B < d) (hhi : d < B) : -B < d.tdiv al ∧ d.tdiv al < B := by
  have hmul : d.tdiv al * al = d := Int.tdiv_mul_cancel hdvd
  constructor
  · rcases le_or_lt 0 (d.tdiv al) with h | h
    · linarith
    · nlinarith
  · rcases le_or_lt 0 (d.tdiv al) with h | h
    · nlinarith
    · linarith

/-- Successful path of `calculateOffset`: a non-null address whose byte
delta is aligned and strictly inside the representable range (with a
power-of-two stride, so that the `uintptr_t`-cast alignment check passes
for negative deltas as well) is stored as the exactly divided offset. -/
theorem calculateOffset_ok (w alignment a self : Nat)
    (hw : w ≠ 0) (hpow : (alignment : Int) ∣ 2 ^ 64) (ha : a ≠ 0)
    (hlo : offsetMin w < (a : Int) - (self : Int))
    (hhi : (a : Int) - (self : Int) < offsetMax w)
    (hdvd : (alignment : Int) ∣ ((a : Int) - (self : Int))) :
    calculateOffset w alignment a self
      = some (((a : Int) - (self : Int)).tdiv alignment) := by
  have halign : alignment ≠ 0 := by
    intro h
    rw [h] at hpow
    norm_num at hpow
  have halign1 : (1 : Int) ≤ (alignment : Int) := by
    exact_mod_cast Nat.one_le_iff_ne_zero.mpr halign
  have hBpos : (0 : Int) < 2 ^ (w - 1) := pow_pos (by norm_num) _
  have hlo' : -(2 ^ (w - 1) : Int) < (a : Int) - (self : Int) := by
    unfold offsetMin at hlo
    exact hlo
  have hhi' : (a : Int) - (self : Int) < 2 ^ (w - 1) := by
    unfold offsetMax at hhi
    linarith
  have hb := tdiv_bounds ((a : Int) - (self : Int)) (alignment : Int) (2 ^ (w - 1))
    halign1 hdvd hBpos hlo' hhi'
  unfold calculateOffset
  rw [if_pos ha]
  have hx0 : (0 : Int) ≤ ((a : Int) - (self : Int)) % 2 ^ 64 :=
    Int.emod_nonneg _ (by norm_num)
  have hmod : ((((a : Int) - (self : Int)) % 2 ^ 64).toNat) % alignment = 0 := by
    have h1 : (((a : Int) - (self : Int)) % 2 ^ 64) % (alignment : Int)
        = ((a : Int) - (self : Int)) % (alignment : Int) :=
      Int.emod_emod_of_dvd _ hpow
    have h2 : ((a : Int) - (self : Int)) % (alignment : Int) = 0 :=
      Int.emod_eq_zero_of_dvd hdvd
    have h3 : ((((a : Int) - (self : Int)) % 2 ^ 64).toNat : Int) % (alignment : Int) = 0 := by
      rw [Int.toNat_of_nonneg hx0, h1, h2]
    exact_mod_cast h3
  rw [if_pos hmod]
  rw [if_pos ⟨le_of_lt hlo, hhi⟩]
  congr 1
  exact signedWrap_eq_self w _ (le_of_lt hb.1) hb.2 hw

/-! Claim theorems. -/

/-- C1: for every integral width `W ∈ {1,2,4,8}` and every value `v` of
that width (represented by its `8·W`-bit pattern, which covers the
boundary values `0`, `max`, signed `min` and alternating bit patterns),
writing `v` with `writeLE` (index map `convLE`) or `writeBE` (index map
`convBE`) to a stream and reading it back from the same bytes with
`readLE` / `readBE` yields exactly `v`. -/
theorem C1_endian_roundtrip (W : Nat) (hW : W = 1 ∨ W = 2 ∨ W = 4 ∨ W = 8)
    (v : Nat) (hv : v < 2 ^ (8 * W)) (old : Nat) :
    (∃ w', writeXEndian vectorWriter W convLE v = some (IOResult.Success, w') ∧
      (readXEndian (IByteReader.fromBuffer w'.calls.flatten) W convLE old).1
        = IOResult.Success ∧
      (readXEndian (IByteReader.fromBuffer w'.calls.flatten) W convLE old).2.2 = v) ∧
    (∃ w', writeXEndian vectorWriter W (convBE W) v = some (IOResult.Success, w') ∧
      (readXEndian (IByteReader.fromBuffer w'.calls.flatten) W (convBE W) old).1
        = IOResult.Success ∧
      (readXEndian (IByteReader.fromBuffer w'.calls.flatten) W (convBE W) old).2.2 = v) := by
  have hW0 : W ≠ 0 := by rcases hW with h | h | h | h <;> omega
  constructor
  · exact endian_roundtrip W convLE v old hW0 hv (fun i hi => hi) (fun i j _ _ h => h)
  · exact endian_roundtrip W (convBE W) v old hW0 hv
      (fun i hi => by show W - i - 1 < W; omega)
      (fun i j hi hj h => by
        have h' : W - i - 1 = W - j - 1 := h
        omega)

/-- Witness for C1 at `W = 4`, `v = 0xA1B2C3D4`. -/
theorem C1_endian_roundtrip_witness :
    ((4 : Nat) = 1 ∨ (4 : Nat) = 2 ∨ (4 : Nat) = 4 ∨ (4 : Nat) = 8) ∧
    (2712847316 : Nat) < 2 ^ (8 * 4) ∧
    ((∃ w', writeXEndian vectorWriter 4 convLE 2712847316 = some (IOResult.Success, w') ∧
      (readXEndian (IByteReader.fromBuffer w'.calls.flatten) 4 convLE 7).1
        = IOResult.Success ∧
      (readXEndian (IByteReader.fromBuffer w'.calls.flatten) 4 convLE 7).2.2 = 2712847316) ∧
    (∃ w', writeXEndian vectorWriter 4 (convBE 4) 2712847316 = some (IOResult.Success, w') ∧
      (readXEndian (IByteReader.fromBuffer w'.calls.flatten) 4 (convBE 4) 7).1
        = IOResult.Success ∧
      (readXEndian (IByteReader.fromBuffer w'.calls.flatten) 4 (convBE 4) 7).2.2
        = 2712847316)) :=
  ⟨by decide, by decide, C1_endian_roundtrip 4 (by decide) 2712847316 (by decide) 7⟩

/-- C2 counterexample: the claim "every non-null aligned address whose
byte delta lies within `[offset_min*stride, offset_max*stride]` is
assignable and read back by `get`" fails at the upper boundary: for an
8-bit offset with stride 1, delta `127 = offset_max * stride` is inside
the claimed window, yet `calculateOffset` asserts `off < k_OffsetMax`
(strict) and aborts, so `assign` never stores an offset. -/
theorem C2_claim_counterexample :
    (1127 : Nat) ≠ 0 ∧
    offsetMin 8 * (1 : Int) ≤ (1127 : Int) - (1000 : Int) ∧
    (1127 : Int) - (1000 : Int) ≤ offsetMax 8 * (1 : Int) ∧
    ((1 : Int) ∣ ((1127 : Int) - (1000 : Int))) ∧
    ¬ ∃ off, relAssign 8 1 1000 1127 = some off ∧
        relGet 8 1 1000 off = some ((1127 : Nat) : Int) := by
  refine ⟨by decide, by decide, by decide, ⟨127, by norm_num⟩, ?_⟩
  rintro ⟨off, h1, -⟩
  have h2 : relAssign 8 1 1000 1127 = none := by decide
  rw [h2] at h1
  exact Option.noConfusion h1

/-- C2 amended: for every signed `w`-bit relative pointer with a
power-of-two stride and every non-null address `a` whose byte delta
`a - address_of(p)` is a multiple of the stride and lies strictly
between `offset_min` and `offset_max` (the code range-checks the
unscaled byte delta, and the `offset_min` boundary is the null
sentinel): after `assign(a)`, `get()` returns exactly `a`. -/
theorem C2_amended_reachability (w alignment self a : Nat)
    (hw : w ≠ 0) (hpow : (alignment : Int) ∣ 2 ^ 64) (ha : a ≠ 0)
    (hlo : offsetMin w < (a : Int) - (self : Int))
    (hhi : (a : Int) - (self : Int) < offsetMax w)
    (hdvd : (alignment : Int) ∣ ((a : Int) - (self : Int))) :
    relAssign w alignment self a
      = some (((a : Int) - (self : Int)).tdiv alignment) ∧
    relGet w alignment self (((a : Int) - (self : Int)).tdiv alignment)
      = some ((a : Nat) : Int) := by
  have halign : alignment ≠ 0 := by
    intro h
    rw [h] at hpow
    norm_num at hpow
  have halign1 : (1 : Int) ≤ (alignment : Int) := by
    exact_mod_cast Nat.one_le_iff_ne_zero.mpr halign
  have hBpos : (0 : Int) < 2 ^ (w - 1) := pow_pos (by norm_num) _
  have hlo' : -(2 ^ (w - 1) : Int) < (a : Int) - (self : Int) := by
    unfold offsetMin at hlo
    exact hlo
  have hhi' : (a : Int) - (self : Int) < 2 ^ (w - 1) := by
    unfold offsetMax at hhi
    linarith
  have hb := tdiv_bounds ((a : Int) - (self : Int)) (alignment : Int) (2 ^ (w - 1))
    halign1 hdvd hBpos hlo' hhi'
  have hmul : (((a : Int) - (self : Int)).tdiv alignment) * (alignment : Int)
      = (a : Int) - (self : Int) := Int.tdiv_mul_cancel hdvd
  constructor
  · exact calculateOffset_ok w alignment a self hw hpow ha hlo hhi hdvd
  · unfold relGet
    rw [if_neg (by
      unfold offsetInvalid offsetMin
      intro hq
      rw [hq] at hb
      exact absurd hb.1 (by simp))]
    rw [hmul]
    congr 1
    ring

/-- Witness for the amended C2 at `w = 16`, stride 4, delta 256. -/
theorem C2_amended_reachability_witness :
    (16 : Nat) ≠ 0 ∧ ((4 : Nat) : Int) ∣ 2 ^ 64 ∧ (1256 : Nat) ≠ 0 ∧
    offsetMin 16 < (1256 : Int) - (1000 : Int) ∧
    (1256 : Int) - (1000 : Int) < offsetMax 16 ∧
    (((4 : Nat) : Int) ∣ ((1256 : Int) - (1000 : Int))) ∧
    (relAssign 16 4 1000 1256 = some (((1256 : Int) - (1000 : Int)).tdiv 4) ∧
     relGet 16 4 1000 (((1256 : Int) - (1000 : Int)).tdiv 4) = some ((1256 : Nat) : Int)) :=
  ⟨by decide, ⟨2 ^ 62, by norm_num⟩, by decide, by decide, by decide, ⟨64, by norm_num⟩,
   C2_amended_reachability 16 4 1000 1256 (by decide) ⟨2 ^ 62, by norm_num⟩ (by decide)
     (by decide) (by decide) ⟨64, by norm_num⟩⟩

/-- C3 (code bug): assigning `nullptr` stores the sentinel, so `isNull`
is true — but the claim's second half is violated by the code: for an
8-bit offset with stride 1, the valid in-range aligned non-null address
at byte delta `-128 = k_OffsetMin` passes both assertions
(`off >= k_OffsetMin` is non-strict) and stores exactly the sentinel
`k_OffsetInvalid`, after which `isNull()` is true and `get()` returns
`nullptr`. -/
theorem C3_sentinel_code_bug :
    relIsNull 8 (relAssignNull 8) = true ∧
    (872 : Nat) ≠ 0 ∧
    offsetMin 8 * (1 : Int) ≤ (872 : Int) - (1000 : Int) ∧
    (872 : Int) - (1000 : Int) ≤ offsetMax 8 * (1 : Int) ∧
    ((1 : Int) ∣ ((872 : Int) - (1000 : Int))) ∧
    relAssign 8 1 1000 872 = some (offsetInvalid 8) ∧
    relIsNull 8 (offsetInvalid 8) = true ∧
    relGet 8 1 1000 (offsetInvalid 8) = none := by
  refine ⟨by decide, by decide, by decide, by decide, ⟨-128, by norm_num⟩,
    by decide, by decide, by decide⟩

/-- C4: for every well-formed buffered reader state, reading the bytes
of any sequence of requests is byte-for-byte identical — in destination
contents and in final stream state — to reading their sum in one call. -/
theorem C4_read_chunking (r : IByteReader) (sizes : List Nat) (hwf : r.Wf) :
    r.readSeq sizes = r.read sizes.sum := by
  induction sizes generalizing r with
  | nil =>
    simp only [IByteReader.readSeq]
    rw [show ([] : List Nat).sum = 0 from rfl, read_zero]
  | cons n rest ih =>
    simp only [IByteReader.readSeq]
    rw [List.sum_cons, read_add r n rest.sum hwf]
    rw [ih (r.read n).1 (read_wf r n hwf)]

/-- Witness for C4: a two-chunk backend, request split `[3, 2]`. -/
theorem C4_read_chunking_witness :
    ({ buffer := [1, 2], cursor := 0, last_result := IOResult.Success,
       chunks := [[3], [4, 5, 6]], failed := false } : IByteReader).Wf ∧
    ({ buffer := [1, 2], cursor := 0, last_result := IOResult.Success,
       chunks := [[3], [4, 5, 6]], failed := false } : IByteReader).readSeq [3, 2]
      = ({ buffer := [1, 2], cursor := 0, last_result := IOResult.Success,
           chunks := [[3], [4, 5, 6]], failed := false } : IByteReader).read
          ([3, 2] : List Nat).sum :=
  ⟨by decide, C4_read_chunking _ [3, 2] (by decide)⟩

/-- C5: once a `ByteWriterView` records a non-Success result it is
sticky — every subsequent `write` returns that same first error without
invoking the backend callback (state, call log and pending backend
results all unchanged) — until `end()` returns the recorded result and
resets the state to `Success`. -/
theorem C5_sticky_writer (w : ByteWriterView) (bytes : List Nat)
    (herr : w.last_result ≠ IOResult.Success) (hbytes : bytes ≠ []) :
    w.write bytes = some (w.last_result, w) ∧
    w.endWriter = (w.last_result, { w with last_result := IOResult.Success }) := by
  constructor
  · unfold ByteWriterView.write
    rw [if_neg (fun h => hbytes (List.length_eq_zero.mp h)), if_neg herr]
  · simp only [ByteWriterView.endWriter, if_neg herr]

/-- Witness for C5 on a writer stuck at `ReadError`. -/
theorem C5_sticky_writer_witness :
    ({ calls := [[1]], pending := [IOResult.InvalidData],
       last_result := IOResult.ReadError } : ByteWriterView).last_result
      ≠ IOResult.Success ∧
    ([9] : List Nat) ≠ [] ∧
    (({ calls := [[1]], pending := [IOResult.InvalidData],
        last_result := IOResult.ReadError } : ByteWriterView).write [9]
      = some (IOResult.ReadError,
          { calls := [[1]], pending := [IOResult.InvalidData],
            last_result := IOResult.ReadError }) ∧
     ({ calls := [[1]], pending := [IOResult.InvalidData],
        last_result := IOResult.ReadError } : ByteWriterView).endWriter
      = (IOResult.ReadError,
         { calls := [[1]], pending := [IOResult.InvalidData],
           last_result := IOResult.Success })) :=
  ⟨by decide, by decide,
   C5_sticky_writer
     { calls := [[1]], pending := [IOResult.InvalidData],
       last_result := IOResult.ReadError } [9] (by decide) (by decide)⟩

/-- C6: after `setFailureState e` (with `e` a failure), every subsequent
`Refill` returns exactly `e` and never `Success` again; the stub keeps
the buffer invariant (`cursor = 0 ≤ buffer length`), re-points the
window at the static zero buffer, and never consults the backend again
(the pending chunks are untouched). -/
theorem C6_terminal_refill (r : IByteReader) (e : IOResult)
    (he : e ≠ IOResult.Success) :
    (r.setFailureState e).1 = e ∧
    ∀ k, (refillIter (r.setFailureState e).2 k).last_result = e ∧
      ((refillIter (r.setFailureState e).2 k).refill).1 = e ∧
      ((refillIter (r.setFailureState e).2 k).refill).1 ≠ IOResult.Success ∧
      (refillIter (r.setFailureState e).2 k).failed = true ∧
      (refillIter (r.setFailureState e).2 k).buffer = zeroBuffer ∧
      (refillIter (r.setFailureState e).2 k).cursor = 0 ∧
      (refillIter (r.setFailureState e).2 k).cursor
        ≤ (refillIter (r.setFailureState e).2 k).buffer.length ∧
      (refillIter (r.setFailureState e).2 k).chunks = r.chunks := by
  have hfix : ∀ k, refillIter (r.setFailureState e).2 k = (r.setFailureState e).2 := by
    intro k
    induction k with
    | zero => rfl
    | succ k ih =>
      show ((refillIter (r.setFailureState e).2 k).refill).2 = _
      rw [ih]
      rfl
  refine ⟨rfl, fun k => ?_⟩
  rw [hfix k]
  refine ⟨rfl, rfl, he, rfl, rfl, rfl, ?_, rfl⟩
  show (0 : Nat) ≤ zeroBuffer.length
  omega

/-- Witness for C6 with a memory-backed reader failed with `ReadError`,
observed after two further refills. -/
theorem C6_terminal_refill_witness :
    IOResult.ReadError ≠ IOResult.Success ∧
    ((IByteReader.fromBuffer [3, 4]).setFailureState IOResult.ReadError).1
      = IOResult.ReadError ∧
    (refillIter ((IByteReader.fromBuffer [3, 4]).setFailureState IOResult.ReadError).2
        2).last_result = IOResult.ReadError ∧
    ((refillIter ((IByteReader.fromBuffer [3, 4]).setFailureState IOResult.ReadError).2
        2).refill).1 = IOResult.ReadError :=
  ⟨by decide,
   (C6_terminal_refill (IByteReader.fromBuffer [3, 4]) IOResult.ReadError (by decide)).1,
   ((C6_terminal_refill (IByteReader.fromBuffer [3, 4]) IOResult.ReadError (by decide)).2 2).1,
   ((C6_terminal_refill (IByteReader.fromBuffer [3, 4]) IOResult.ReadError (by decide)).2 2).2.1⟩

/-- C7: `writeLE` places byte `i` of the value's little-endian
decomposition at output position `i` and `writeBE` at position
`W - 1 - i`, and in both cases the codec issues exactly one `write` call
to the underlying stream, of exactly `W` bytes (the call log grows by
one entry holding the assembled buffer). -/
theorem C7_write_layout (w : ByteWriterView) (W v : Nat)
    (hw : w.last_result = IOResult.Success) (hW : W ≠ 0) :
    (∃ res w', writeXEndian w W convLE v = some (res, w') ∧
        w'.calls = w.calls ++ [writeXEndianBytes W convLE v]) ∧
    (∃ res w', writeXEndian w W (convBE W) v = some (res, w') ∧
        w'.calls = w.calls ++ [writeXEndianBytes W (convBE W) v]) ∧
    (writeXEndianBytes W convLE v).length = W ∧
    (writeXEndianBytes W (convBE W) v).length = W ∧
    (∀ i, i < W → (writeXEndianBytes W convLE v).getD i 0 = (v >>> (8 * i)) &&& 255) ∧
    (∀ i, i < W → (writeXEndianBytes W (convBE W) v).getD (W - i - 1) 0
        = (v >>> (8 * i)) &&& 255) := by
  refine ⟨⟨_, _, writeXEndian_ok w W convLE v hw hW, rfl⟩,
    ⟨_, _, writeXEndian_ok w W (convBE W) v hw hW, rfl⟩,
    length_writeXEndianBytes W convLE v,
    length_writeXEndianBytes W (convBE W) v, ?_, ?_⟩
  · intro i hi
    exact getD_writeXEndianBytes W convLE v (fun i hi => hi) (fun i j _ _ h => h) i hi
  · intro i hi
    exact getD_writeXEndianBytes W (convBE W) v
      (fun i hi => by show W - i - 1 < W; omega)
      (fun i j hi hj h => by
        have h' : W - i - 1 = W - j - 1 := h
        omega) i hi

/-- Witness for C7 at `W = 2`, `v = 0xABCD` on a fresh vector writer. -/
theorem C7_write_layout_witness :
    vectorWriter.last_result = IOResult.Success ∧ (2 : Nat) ≠ 0 ∧
    ((∃ res w', writeXEndian vectorWriter 2 convLE 43981 = some (res, w') ∧
        w'.calls = vectorWriter.calls ++ [writeXEndianBytes 2 convLE 43981]) ∧
     (∃ res w', writeXEndian vectorWriter 2 (convBE 2) 43981 = some (res, w') ∧
        w'.calls = vectorWriter.calls ++ [writeXEndianBytes 2 (convBE 2) 43981]) ∧
     (writeXEndianBytes 2 convLE 43981).length = 2 ∧
     (writeXEndianBytes 2 (convBE 2) 43981).length = 2 ∧
     (∀ i, i < 2 → (writeXEndianBytes 2 convLE 43981).getD i 0
        = (43981 >>> (8 * i)) &&& 255) ∧
     (∀ i, i < 2 → (writeXEndianBytes 2 (convBE 2) 43981).getD (2 - i - 1) 0
        = (43981 >>> (8 * i)) &&& 255)) :=
  ⟨rfl, by decide, C7_write_layout vectorWriter 2 43981 rfl (by decide)⟩

/-- C8 counterexample: a `Write` request of zero bytes does not succeed
trivially — it trips the writer's `binaryIOAssert(bytes != nullptr &&
num_bytes > 0, ...)` precondition and aborts, modelled as `none`. -/
theorem C8_zero_write_counterexample : vectorWriter.write [] = none := by
  decide

/-- C8 amended: a zero-byte `Read` returns without touching the reader
or its backend, reporting the current sticky result (hence without error
exactly when no error is already recorded); a zero-byte `Write` violates
the writer's assertion (a fatal programmer error) instead of succeeding
trivially. -/
theorem C8_zero_length_amended :
    (∀ r : IByteReader, r.read 0 = (r, []) ∧
      ((r.read 0).1).last_result = r.last_result) ∧
    (∀ w : ByteWriterView, w.write [] = none) := by
  constructor
  · intro r
    refine ⟨read_zero r, ?_⟩
    rw [read_zero r]
  · intro w
    unfold ByteWriterView.write
    rw [if_pos (show ([] : List Nat).length = 0 from rfl)]

/-- C9: whenever the underlying stream read of a `readLE` / `readBE`
call does not fully succeed, the caller's output object is left
unmodified and the error code of the failed read is returned. -/
theorem C9_read_failure_frame (r : IByteReader) (W : Nat) (conv : Nat → Nat) (old : Nat)
    (hfail : ((r.read W).1).last_result ≠ IOResult.Success) :
    readXEndian r W conv old = (((r.read W).1).last_result, (r.read W).1, old) := by
  simp only [readXEndian]
  rw [if_neg hfail]

/-- Witness for C9: a 4-byte read from a 2-byte memory stream fails with
`EndOfStream` and leaves the output value `42` unmodified. -/
theorem C9_read_failure_frame_witness :
    (((IByteReader.fromBuffer [1, 2]).read 4).1).last_result ≠ IOResult.Success ∧
    readXEndian (IByteReader.fromBuffer [1, 2]) 4 convLE 42
      = ((((IByteReader.fromBuffer [1, 2]).read 4).1).last_result,
         ((IByteReader.fromBuffer [1, 2]).read 4).1, 42) :=
  ⟨by decide, C9_read_failure_frame (IByteReader.fromBuffer [1, 2]) 4 convLE 42 (by decide)⟩

/-- C10: on a memory-backed reader (`fromBuffer`) with `r` bytes left
unread, a request of `m > r` bytes copies exactly the `r` remaining
bytes, ends in the terminal `EndOfStream` state, and every subsequent
read of that state returns `EndOfStream` while copying zero bytes. -/
theorem C10_frombuffer_eos (data : List Nat) (c m : Nat)
    (hc : c ≤ data.length) (hm : data.length - c < m) :
    ({ buffer := data, cursor := c, last_result := IOResult.Success,
       chunks := [], failed := false } : IByteReader).read m
      = (eosState, data.drop c) ∧
    (data.drop c).length = data.length - c ∧
    eosState.last_result = IOResult.EndOfStream ∧
    ∀ m', eosState.read m' = (eosState, []) :=
  ⟨read_fromBuffer_over data c m hc hm, List.length_drop c data, rfl, read_eosState⟩

/-- Witness for C10: three-byte buffer, one byte consumed, request of
five bytes. -/
theorem C10_frombuffer_eos_witness :
    (1 : Nat) ≤ ([5, 6, 7] : List Nat).length ∧
    ([5, 6, 7] : List Nat).length - 1 < 5 ∧
    (({ buffer := [5, 6, 7], cursor := 1, last_result := IOResult.Success,
        chunks := [], failed := false } : IByteReader).read 5
      = (eosState, ([5, 6, 7] : List Nat).drop 1) ∧
     (([5, 6, 7] : List Nat).drop 1).length = ([5, 6, 7] : List Nat).length - 1 ∧
     eosState.last_result = IOResult.EndOfStream ∧
     ∀ m', eosState.read m' = (eosState, [])) :=
  ⟨by decide, by decide, C10_frombuffer_eos [5, 6, 7] 1 5 (by decide) (by decide)⟩
